import Mathlib

/-!
# Verification of the kael engine's value bridge, schema validator, adapters
# and kit-management primitives

This file is a shallow embedding, in Lean 4, of the parts of the kael
repository (github.com/tchaudhry91/kael) that the checked claims are about:

* the Lua <-> Go value bridge `luaToGo` / `goToLua` (engine/lua.go),
* the scripted tool-call closure produced by `defineTool` (engine/engine.go),
* the schema validator `validateInput` / `checkType` (engine/schema.go),
* the input/output adapters (engine/adapter.go),
* `parseSourcePath` (cmd/kit_add.go) and `wireNamespace` (cmd/kit.go).

Modelling conventions:

* gopher-lua `LValue`s are modelled by the inductive `LValue`.  An `LTable`
  is modelled by its array part (`arr : List LValue`, 1-based consecutive
  integer keys) and its string-keyed hash part
  (`hash : List (String × LValue)`, an association list in key insertion
  order, mirroring gopher-lua's `strdict` map plus its `keys` bookkeeping
  list).  Tables with other key shapes (e.g. non-consecutive integer keys)
  are outside the modelled fragment; none of the modelled operations
  creates them.
* Lua numbers (`LNumber`, a 64-bit float in the source) only flow through
  the modelled operations unchanged; no modelled operation computes with
  them.  They are embedded by the exactly-representable integral floats,
  carried as `Int`.  Go's `%g` formatting of such a float prints the plain
  decimal integer (for the magnitudes that appear in kits), modelled by
  `Int`'s decimal `toString`.
* Go `map` iteration order is unspecified.  Wherever the source ranges
  over a Go map (copying `cfg.Defaults`, validating `schema.Input`), the
  model takes the iteration sequence as an explicit association list; the
  theorems either hold for every such sequence or exhibit the dependence
  on it.
* Non-data Lua values (functions, userdata, channels) are collapsed into
  the constructor `LValue.lother` carrying their type name; every modelled
  operation treats them exactly as the source's type switches do (they hit
  the `default` branches).
-/

namespace Kael

/-- A native Go value as produced by `encoding/json` unmarshalling and by
`luaToGo`: `nil`, `bool`, `float64`, `string`, `[]any`, `map[string]any`.
A Go map is carried as an association list in a fixed iteration order
(keys unique); Go map equality is key-set/value equality, which on the
canonical lists used here coincides with list equality. -/
inductive GoVal where
  | gnil
  | gbool (b : Bool)
  | gnum (n : Int)
  | gstr (s : String)
  | glist (xs : List GoVal)
  | gmap (kvs : List (String × GoVal))

/-- A gopher-lua `LValue`.  `ltable arr hash` carries the array part and the
string-keyed hash part (insertion-ordered association list).  `lother`
stands for the non-data values (`LFunction`, `LUserData`, ...) with their
Lua type name. -/
inductive LValue where
  | lnil
  | lbool (b : Bool)
  | lnum (n : Int)
  | lstr (s : String)
  | ltable (arr : List LValue) (hash : List (String × LValue))
  | lother (typeName : String)

/-- `v == lua.LNil` -/
def isLNil : LValue → Bool
  | .lnil => true
  | _ => false

/-- gopher-lua `LTable.Append`: appending `LNil` is a no-op, otherwise the
value is placed after the last non-nil entry.  On the nil-free array parts
built by the modelled operations this is a plain append. -/
def tableAppend (arr : List LValue) (v : LValue) : List LValue :=
  if isLNil v then arr else arr ++ [v]

/-- gopher-lua `LTable.RawSetString` (the no-metatable case of
`LState.SetField`): setting `LNil` deletes the key from `strdict`;
otherwise the value is updated in place if the key is present, and the
key is recorded at the end of the insertion order if new. -/
def rawSetString (hash : List (String × LValue)) (k : String) (v : LValue) :
    List (String × LValue) :=
  if isLNil v then hash.filter (fun kv => kv.1 != k)
  else if hash.any (fun kv => kv.1 == k) then
    hash.map (fun kv => if kv.1 == k then (k, v) else kv)
  else hash ++ [(k, v)]

/-- gopher-lua `LTable.RawGetString` (the no-metatable case of
`LState.GetField`): `LNil` when the key is absent. -/
def rawGetString (hash : List (String × LValue)) (k : String) : LValue :=
  match hash.find? (fun kv => kv.1 == k) with
  | some kv => kv.2
  | none => .lnil

/-- gopher-lua `LTable.ForEach` as used with stringified keys
(`key.String()`): the array part first (keys `"1"`, `"2"`, ... , nil
entries skipped), then the hash part in insertion order (nil values
cannot be stored, but are skipped for faithfulness). -/
def forEachEntries (arr : List LValue) (hash : List (String × LValue)) :
    List (String × LValue) :=
  (arr.enum.filterMap fun p =>
    if isLNil p.2 then none else some (toString (p.1 + 1), p.2)) ++
  hash.filter (fun kv => !isLNil kv.2)

/-- `LTable.MaxN` computed from the per-entry nil flags recorded by
`luaToGoArr`: the index of the last non-nil array entry (0 when there is
none), i.e. the length after dropping trailing nils. -/
def maxNFromPairs (pairs : List (Bool × GoVal)) : Nat :=
  (pairs.reverse.dropWhile Prod.fst).length

/-- The `ForEach`-built `map[string]any` body of `luaToGo`'s non-array
branch, from the flagged conversions of the array part and the hash part:
array entries get stringified integer keys, nil entries are skipped. -/
def forEachGo (pairs : List (Bool × GoVal))
    (hpairs : List (String × Bool × GoVal)) : List (String × GoVal) :=
  (pairs.enum.filterMap fun p =>
    if p.2.1 then none else some (toString (p.1 + 1), p.2.2)) ++
  (hpairs.filterMap fun q => if q.2.1 then none else some (q.1, q.2.2))

mutual
/-- `luaToGo` (engine/lua.go:9-36): `LNil → nil`, `LBool → bool`,
`LNumber → float64`, `LString → string`; a table with `MaxN() > 0`
becomes the `[]any` of its entries `RawGetInt 1 .. MaxN` (that prefix of
the array part), any other table becomes the `map[string]any` built by
`ForEach` with stringified keys; every other value (the `default` branch)
becomes `nil`. -/
def luaToGo : LValue → GoVal
  | .lnil => .gnil
  | .lbool b => .gbool b
  | .lnum n => .gnum n
  | .lstr s => .gstr s
  | .lother _ => .gnil
  | .ltable arr hash =>
      let pairs := luaToGoArr arr
      if 0 < maxNFromPairs pairs then
        .glist ((pairs.take (maxNFromPairs pairs)).map Prod.snd)
      else
        .gmap (forEachGo pairs (luaToGoHash hash))

/-- Recursive conversion of an array part, remembering for each entry
whether the original was `LNil` (needed for `MaxN` and `ForEach`). -/
def luaToGoArr : List LValue → List (Bool × GoVal)
  | [] => []
  | v :: vs => (isLNil v, luaToGo v) :: luaToGoArr vs

/-- Recursive conversion of a hash part, remembering nil-ness. -/
def luaToGoHash : List (String × LValue) → List (String × Bool × GoVal)
  | [] => []
  | kv :: rest => (kv.1, isLNil kv.2, luaToGo kv.2) :: luaToGoHash rest
end

mutual
/-- `goToLua` (engine/lua.go:38-65): `nil → LNil`, `bool → LBool`,
`float64 → LNumber`, `string → LString`; a `[]any` becomes a table built
by `Append`-ing each converted element; a `map[string]any` becomes a
table built by `SetField`-ing each converted entry (in the map's
iteration order); anything else would become `LNil` (no such `GoVal`
exists in the modelled native domain). -/
def goToLua : GoVal → LValue
  | .gnil => .lnil
  | .gbool b => .lbool b
  | .gnum n => .lnum n
  | .gstr s => .lstr s
  | .glist xs => .ltable (goToLuaArr [] xs) []
  | .gmap kvs => .ltable [] (goToLuaHash [] kvs)

/-- The `tbl.Append(goToLua(L, item))` loop, threading the array part. -/
def goToLuaArr (acc : List LValue) : List GoVal → List LValue
  | [] => acc
  | x :: xs => goToLuaArr (tableAppend acc (goToLua x)) xs

/-- The `L.SetField(tbl, key, goToLua(L, val))` loop, threading the hash
part. -/
def goToLuaHash (acc : List (String × LValue)) :
    List (String × GoVal) → List (String × LValue)
  | [] => acc
  | kv :: rest => goToLuaHash (rawSetString acc kv.1 (goToLua kv.2)) rest
end

/-- The class of native values on which the `goToLua` / `luaToGo` round trip
is exact: values built from `nil`, booleans, floats, strings, non-empty
lists of non-`nil` such values, and maps (unique keys) of non-`nil` such
values.  (An empty list comes back as an empty map; a `nil` element or map
value is dropped by the table constructors; both make the round trip
inexact.) -/
inductive Good : GoVal → Prop
  | gnil : Good .gnil
  | gbool (b : Bool) : Good (.gbool b)
  | gnum (n : Int) : Good (.gnum n)
  | gstr (s : String) : Good (.gstr s)
  | glist (xs : List GoVal) : xs ≠ [] → (∀ x ∈ xs, x ≠ .gnil) →
      (∀ x ∈ xs, Good x) → Good (.glist xs)
  | gmap (kvs : List (String × GoVal)) : (kvs.map Prod.fst).Nodup →
      (∀ kv ∈ kvs, kv.2 ≠ .gnil) → (∀ kv ∈ kvs, Good kv.2) →
      Good (.gmap kvs)

/-! ## Rendering of scalar values -/

/-- gopher-lua `LValue.String()`: `nil`, `true`/`false`, the decimal form
of an (integral) number, the raw string; tables and non-data values print
their type name followed by a memory address, modelled with the constant
address `0x0` (no modelled claim depends on that text). -/
def lvalString : LValue → String
  | .lnil => "nil"
  | .lbool b => if b then "true" else "false"
  | .lnum n => toString n
  | .lstr s => s
  | .ltable _ _ => "table: 0x0"
  | .lother t => t ++ ": 0x0"

/-- Go `fmt.Sprintf("%g", float64(v))` restricted to the integral floats
that embed the modelled Lua numbers: plain decimal (for the magnitudes
below the `%g` exponent cutoff that appear in kits). -/
def sprintfG (n : Int) : String := toString n

/-- `LValue.Type().String()`: the Lua type name used in type-mismatch
messages. -/
def luaTypeName : LValue → String
  | .lnil => "nil"
  | .lbool _ => "boolean"
  | .lnum _ => "number"
  | .lstr _ => "string"
  | .ltable _ _ => "table"
  | .lother t => t

/-! ## Schema declaration & validation (engine/schema.go) -/

/-- `FieldSchema` (schema.go): `ty` is the source's `Type` field (renamed,
`Type` being a Lean keyword). -/
structure FieldSchema where
  ty : String
  required : Bool
  description : String
  deriving DecidableEq

/-- `ToolSchema` (schema.go): the `Input` / `Output` Go maps are carried
as association lists in an explicit iteration order (`none` models a nil
map). -/
structure ToolSchemaM where
  input : Option (List (String × FieldSchema))
  output : Option (List (String × FieldSchema))

/-- `checkType` (schema.go 973-994): the `array` and `object` cases of the
source's switch are a single case body parameterised by `expectedType`;
they are spelled out here.  Any other type string hits no switch case and
returns nil. -/
def checkType (name expectedType : String) (val : LValue) : Option String :=
  if expectedType = "string" then
    match val with
    | .lstr _ => none
    | _ => some ("field \"" ++ name ++ "\": expected string, got " ++
        luaTypeName val)
  else if expectedType = "number" then
    match val with
    | .lnum _ => none
    | _ => some ("field \"" ++ name ++ "\": expected number, got " ++
        luaTypeName val)
  else if expectedType = "boolean" then
    match val with
    | .lbool _ => none
    | _ => some ("field \"" ++ name ++ "\": expected boolean, got " ++
        luaTypeName val)
  else if expectedType = "array" ∨ expectedType = "object" then
    match val with
    | .ltable _ _ => none
    | _ => some ("field \"" ++ name ++ "\": expected " ++ expectedType ++
        ", got " ++ luaTypeName val)
  else none

/-- The `for name, field := range schema.Input` loop of `validateInput`
(schema.go 950-971), over an explicit iteration sequence of the Go map
(`merged` is the hash part of the merged parameter table, which is built
by string-keyed `SetField`s only). -/
def validateFields (merged : List (String × LValue)) :
    List (String × FieldSchema) → Option String
  | [] => none
  | (name, field) :: rest =>
      let val := rawGetString merged name
      if isLNil val then
        if field.required then
          some ("missing required field \"" ++ name ++ "\" (expected " ++
            field.ty ++ ")")
        else validateFields merged rest
      else
        match checkType name field.ty val with
        | some e => some e
        | none => validateFields merged rest

/-- `validateInput` (schema.go 950-971): nil schema or nil input map means
success. -/
def validateInput (schema : Option ToolSchemaM)
    (merged : List (String × LValue)) : Option String :=
  match schema with
  | none => none
  | some s =>
      match s.input with
      | none => none
      | some fields => validateFields merged fields

/-- The outcome of one loop iteration of `validateFields` on a single
declared field, used to state what the loop checks per field. -/
def fieldCheck (merged : List (String × LValue)) (f : String × FieldSchema) :
    Option String :=
  let val := rawGetString merged f.1
  if isLNil val then
    if f.2.required then
      some ("missing required field \"" ++ f.1 ++ "\" (expected " ++
        f.2.ty ++ ")")
    else none
  else checkType f.1 f.2.ty val

/-! ## JSON serialization (the `json` input-adapter branch) -/

/-- JSON string escaping as `encoding/json` produces it for the characters
occurring in modelled values. -/
def jsonEscapeChar (c : Char) : String :=
  if c = '"' then "\\\""
  else if c = '\\' then "\\\\"
  else if c = '\n' then "\\n"
  else if c = '\t' then "\\t"
  else if c = '\r' then "\\r"
  else String.singleton c

def jsonEscape (s : String) : String :=
  String.join (s.data.map jsonEscapeChar)

/-- Insertion into a key-sorted list of already-marshalled map entries
(`encoding/json` emits Go map keys in sorted order). -/
def insertByKey (kv : String × String) :
    List (String × String) → List (String × String)
  | [] => [kv]
  | x :: xs => if kv.1 ≤ x.1 then kv :: x :: xs else x :: insertByKey kv xs

def sortByKey : List (String × String) → List (String × String)
  | [] => []
  | x :: xs => insertByKey x (sortByKey xs)

mutual
/-- `encoding/json.Marshal` on the modelled native values.  On this domain
(no NaN/Inf floats, no unmarshalable types) marshalling cannot fail, so it
is total. -/
def jsonMarshal : GoVal → String
  | .gnil => "null"
  | .gbool b => if b then "true" else "false"
  | .gnum n => toString n
  | .gstr s => "\"" ++ jsonEscape s ++ "\""
  | .glist xs => "[" ++ String.intercalate "," (jsonMarshalList xs) ++ "]"
  | .gmap kvs =>
      "\x7b" ++ String.intercalate ","
        ((sortByKey (jsonMarshalEntries kvs)).map
          (fun p => "\"" ++ jsonEscape p.1 ++ "\":" ++ p.2)) ++ "\x7d"

def jsonMarshalList : List GoVal → List String
  | [] => []
  | x :: xs => jsonMarshal x :: jsonMarshalList xs

def jsonMarshalEntries : List (String × GoVal) → List (String × String)
  | [] => []
  | kv :: rest => (kv.1, jsonMarshal kv.2) :: jsonMarshalEntries rest
end

/-! ## Input adapters (engine/adapter.go) -/

/-- The `ForEach` body of `argsFromTable` (adapter.go 46-67), threading the
`args` accumulator: boolean `true` appends the bare flag, `false` nothing;
numbers and strings append flag plus value; a table value repeats the flag
for each of its `ForEach` entries, stringified; other values hit no switch
case. -/
def argsLoop (acc : List String) : List (String × LValue) → List String
  | [] => acc
  | (key, val) :: rest =>
      let name := "--" ++ key
      match val with
      | .lbool b => argsLoop (if b then acc ++ [name] else acc) rest
      | .lnum n => argsLoop (acc ++ [name, sprintfG n]) rest
      | .lstr s => argsLoop (acc ++ [name, s]) rest
      | .ltable varr vhash =>
          argsLoop (acc ++ (forEachEntries varr vhash).foldl
            (fun a item => a ++ [name, lvalString item.2]) []) rest
      | _ => argsLoop acc rest

/-- `argsFromTable` (adapter.go 46-67): no stdin, no error. -/
def argsFromTable (arr : List LValue) (hash : List (String × LValue)) :
    Except String (Option String × List String) :=
  .ok (none, argsLoop [] (forEachEntries arr hash))

/-- The first loop of `positionalFromTable` (adapter.go 79-93): each
`argsOrder` key is looked up with `RawGetString`; nil values are skipped,
numbers are `%g`-formatted, strings taken as-is, everything else
stringified with `String()`. -/
def positionalFirst (hash : List (String × LValue)) (acc : List String) :
    List String → List String
  | [] => acc
  | key :: rest =>
      match rawGetString hash key with
      | .lnil => positionalFirst hash acc rest
      | .lnum n => positionalFirst hash (acc ++ [sprintfG n]) rest
      | .lstr s => positionalFirst hash (acc ++ [s]) rest
      | v => positionalFirst hash (acc ++ [lvalString v]) rest

/-- The second loop of `positionalFromTable` (adapter.go 96-116):
remaining keys (not consumed by `argsOrder`) are appended with the same
flag rules as the `args` adapter. -/
def positionalRest (consumed : List String) (acc : List String) :
    List (String × LValue) → List String
  | [] => acc
  | (key, val) :: rest =>
      if consumed.contains key then positionalRest consumed acc rest
      else
        let flag := "--" ++ key
        match val with
        | .lbool b =>
            positionalRest consumed (if b then acc ++ [flag] else acc) rest
        | .lnum n => positionalRest consumed (acc ++ [flag, sprintfG n]) rest
        | .lstr s => positionalRest consumed (acc ++ [flag, s]) rest
        | .ltable varr vhash =>
            positionalRest consumed (acc ++ (forEachEntries varr vhash).foldl
              (fun a item => a ++ [flag, lvalString item.2]) []) rest
        | _ => positionalRest consumed acc rest

/-- `positionalFromTable` (adapter.go 72-119): positional values first (in
`argsOrder`), then the un-consumed keys as flags.  `consumed` is exactly
the set of `argsOrder` keys; no stdin; the function never returns an
error. -/
def positionalFromTable (arr : List LValue) (hash : List (String × LValue))
    (argsOrder : List String) : Except String (Option String × List String) :=
  .ok (none, positionalRest argsOrder (positionalFirst hash [] argsOrder)
    (forEachEntries arr hash))

/-- `adaptInput` (adapter.go 27-41): `"json"` marshals the `luaToGo` image
of the merged table onto stdin (total on the modelled domain, see
`jsonMarshal`); `"positional_args"` and the default (`args`) branches
produce CLI arguments only. -/
def adaptInput (inputAdapter : String) (arr : List LValue)
    (hash : List (String × LValue)) (argsOrder : List String) :
    Except String (Option String × List String) :=
  match inputAdapter with
  | "json" => .ok (some (jsonMarshal (luaToGo (.ltable arr hash))), [])
  | "positional_args" => positionalFromTable arr hash argsOrder
  | _ => argsFromTable arr hash

/-! ## Output adapters (engine/adapter.go) -/

/-- Go `strings.TrimRight(s, "\n")`: drop every trailing newline. -/
def trimRightNewlines (s : List Char) : List Char :=
  (s.reverse.dropWhile (fun c => c == '\n')).reverse

/-- The `lines` branch of `adaptOutput` (adapter.go 131-139): trim all
trailing newlines with `TrimRight`, split the remainder on `"\n"` unless
it is empty, wrap as a one-entry map. -/
def adaptOutputLines (outputB : List Char) : GoVal :=
  let raw := trimRightNewlines outputB
  let lines : List GoVal :=
    if raw.isEmpty then []
    else (raw.splitOn '\n').map (fun l => .gstr (String.mk l))
  .gmap [("lines", .glist lines)]

/-- The `text` (default) branch of `adaptOutput` (adapter.go 140-141). -/
def adaptOutputText (outputB : List Char) : GoVal :=
  .gmap [("output", .gstr (String.mk outputB))]

/-- Modelled from the claim's words (C4 as stated): trim EXACTLY ONE
trailing newline, then split and wrap the same way. -/
def specLinesTrimOne (outputB : List Char) : GoVal :=
  let raw := if outputB.getLast? = some '\n' then outputB.dropLast else outputB
  let lines : List GoVal :=
    if raw.isEmpty then []
    else (raw.splitOn '\n').map (fun l => .gstr (String.mk l))
  .gmap [("lines", .glist lines)]

/-- Modelled from the amended claim's words (C4 amended): trim ALL
trailing newlines, one at a time. -/
def specTrimTrailing (s : List Char) : List Char :=
  if h : s.getLast? = some '\n' then specTrimTrailing s.dropLast else s
termination_by s.length
decreasing_by
  have hne : s ≠ [] := by
    intro he
    rw [he] at h
    simp at h
  have := List.length_pos.mpr hne
  rw [List.length_dropLast]
  omega

/-- Modelled from the amended claim's words (C4 amended): the `lines`
output as the amended claim describes it. -/
def specLinesAmended (outputB : List Char) : GoVal :=
  let raw := specTrimTrailing outputB
  let lines : List GoVal :=
    if raw.isEmpty then []
    else (raw.splitOn '\n').map (fun l => .gstr (String.mk l))
  .gmap [("lines", .glist lines)]

/-! ## The tool-call closure produced by `defineTool` (engine/engine.go) -/

/-- The fields of `ToolConfig` (engine.go 13-28) that the modelled part of
the call closure reads.  `defaults` is `cfg.Defaults` (a Go map) in an
explicit iteration order. -/
structure ToolConfigM where
  defaults : List (String × LValue)
  schema : Option ToolSchemaM
  inputAdapter : String
  argsOrder : List String

/-- The `merged` table of the tool closure (engine.go 221-231): a fresh
table, every `defaults` entry `SetField`-ed in, then every entry of the
user-parameter table (stringified keys) `SetField`-ed over it. -/
def buildMerged (defaults : List (String × LValue)) (uArr : List LValue)
    (uHash : List (String × LValue)) : List (String × LValue) :=
  (forEachEntries uArr uHash).foldl (fun m kv => rawSetString m kv.1 kv.2)
    (defaults.foldl (fun m kv => rawSetString m kv.1 kv.2) [])

/-- How a tool call leaves the modelled part of the closure
(engine.go 218-260): a validation error raised with the
`Schema Validation Failure:` tag, an adaptation error raised verbatim, or
a dispatch to the Runner with the adapted stdin bytes and extra CLI
arguments. -/
inductive CallOutcome where
  | validationError (msg : String)
  | adaptError (msg : String)
  | dispatched (stdin : Option String) (extraArgs : List String)
  deriving DecidableEq

/-- The tool closure of `defineTool` (engine.go 218-260) up to the Runner
boundary: merge, validate (tagging failures), adapt. -/
def toolCallPrep (cfg : ToolConfigM) (uArr : List LValue)
    (uHash : List (String × LValue)) : CallOutcome :=
  let merged := buildMerged cfg.defaults uArr uHash
  match validateInput cfg.schema merged with
  | some e => .validationError ("Schema Validation Failure: " ++ e)
  | none =>
      match adaptInput cfg.inputAdapter [] merged cfg.argsOrder with
      | .error e => .adaptError e
      | .ok pr => .dispatched pr.1 pr.2

/-! ## Go string helpers, `parseSourcePath`, `wireNamespace` -/

/-- Go `strings.Index(s, pat)`: position of the first occurrence, `none`
for "not found" (the source's `-1`). -/
def goIndex (pat : List Char) : List Char → Option Nat
  | [] => if pat.isPrefixOf ([] : List Char) then some 0 else none
  | c :: cs =>
      if pat.isPrefixOf (c :: cs) then some 0
      else (goIndex pat cs).map (· + 1)

/-- Split at the first occurrence of `pat`: `some (before, after)`, where
the input is `before ++ pat ++ after` and `before` is shortest.  This is
the combination of `strings.Contains` / `strings.Replace(s, old, new, 1)`
that `wireNamespace` uses. -/
def breakOn (pat : List Char) : List Char → Option (List Char × List Char)
  | [] => if pat.isPrefixOf ([] : List Char) then some ([], []) else none
  | c :: cs =>
      if pat.isPrefixOf (c :: cs) then some ([], (c :: cs).drop pat.length)
      else (breakOn pat cs).map (fun pr => (c :: pr.1, pr.2))

/-- Go `strings.Contains(s, pat)`. -/
def goContains (s pat : List Char) : Bool := (breakOn pat s).isSome

/-- Go `strings.TrimPrefix(s, "/")` as used by `parseSourcePath`. -/
def trimLeadSlash (s : List Char) : List Char :=
  if ['/'].isPrefixOf s then s.drop 1 else s

/-- The `protocolEnd` computation of `parseSourcePath`
(cmd/kit_add.go 224-230): the length of a leading `https://` / `http://`
scheme prefix, 0 when the source has neither. -/
def protocolEndOf (source : List Char) : Nat :=
  if "https://".data.isPrefixOf source then 8
  else if "http://".data.isPrefixOf source then 7
  else 0

/-- `parseSourcePath` (cmd/kit_add.go 219-238): no `//` at all means no
split; otherwise the scheme prefix (`https://` / `http://`) is skipped
and the source is split at the first `//` at or after `protocolEnd` (no
such `//` again means no split), the in-repo path additionally losing one
leading `/`. -/
def parseSourcePath (source : List Char) : List Char × List Char :=
  match goIndex "//".data source with
  | none => (source, [])
  | some _ =>
      match goIndex "//".data (source.drop (protocolEndOf source)) with
      | none => (source, [])
      | some i =>
          (source.take (protocolEndOf source + i),
            trimLeadSlash (source.drop (protocolEndOf source + i + 2)))

/-- The `requireLine` of `wireNamespace` (cmd/kit.go 300):
`M.<name> = require("<requirePath>")`. -/
def requireLineOf (name requirePath : String) : List Char :=
  ("M." ++ name ++ " = require(\"" ++ requirePath ++ "\")").data

/-- `wireNamespace` (cmd/kit.go 293-314) on the target file's content: if
the exact require line already occurs anywhere, return the content
unchanged; otherwise replace the first occurrence of `return M` by the
require line, a newline and `return M` (the source detects a missing
occurrence by `Replace` returning the content unchanged, which on a
strictly-lengthening replacement is exactly the no-occurrence case); with
no occurrence, fail (the source message also cites the file path). -/
def wireNamespace (content : List Char) (name requirePath : String) :
    Except String (List Char) :=
  if goContains content (requireLineOf name requirePath) then .ok content
  else
    match breakOn "return M".data content with
    | some pr =>
        .ok (pr.1 ++ requireLineOf name requirePath ++
          ("\nreturn M").data ++ pr.2)
    | none => .error "could not find return M"

/-- Modelled from the claim's words (C6): what the `args` adapter emits
for one key of the merged table — `true` a standalone flag, `false`
nothing, scalars flag-plus-value, a table the flag repeated per element
with the element stringified; values outside the claim's enumeration
(which the source's switch ignores) emit nothing. -/
def claimArgsEmit (kv : String × LValue) : List String :=
  match kv.2 with
  | .lbool true => ["--" ++ kv.1]
  | .lbool false => []
  | .lnum n => ["--" ++ kv.1, sprintfG n]
  | .lstr s => ["--" ++ kv.1, s]
  | .ltable varr vhash =>
      (forEachEntries varr vhash).flatMap
        (fun item => ["--" ++ kv.1, lvalString item.2])
  | _ => []

/-! ## Basic lemmas about the value bridge -/

theorem isLNil_eq_false {v : LValue} : isLNil v = false ↔ v ≠ .lnil := by
  cases v <;> simp [isLNil]

theorem goToLua_ne_lnil {v : GoVal} (h : v ≠ .gnil) : goToLua v ≠ .lnil := by
  cases v <;> simp [goToLua] at h ⊢

theorem luaToGoArr_eq_map (l : List LValue) :
    luaToGoArr l = l.map (fun v => (isLNil v, luaToGo v)) := by
  induction l with
  | nil => simp [luaToGoArr]
  | cons v vs ih => simp [luaToGoArr, ih]

theorem luaToGoHash_eq_map (l : List (String × LValue)) :
    luaToGoHash l = l.map (fun kv => (kv.1, isLNil kv.2, luaToGo kv.2)) := by
  induction l with
  | nil => simp [luaToGoHash]
  | cons kv rest ih => simp [luaToGoHash, ih]

theorem goToLuaArr_eq_map (xs : List GoVal) (acc : List LValue)
    (h : ∀ x ∈ xs, x ≠ .gnil) :
    goToLuaArr acc xs = acc ++ xs.map goToLua := by
  induction xs generalizing acc with
  | nil => simp [goToLuaArr]
  | cons x rest ih =>
      have hx : isLNil (goToLua x) = false :=
        isLNil_eq_false.mpr (goToLua_ne_lnil (h x (by simp)))
      simp only [goToLuaArr, tableAppend, hx, if_neg Bool.false_ne_true]
      rw [ih _ (fun y hy => h y (by simp [hy]))]
      simp

theorem goToLuaHash_eq_map (kvs : List (String × GoVal))
    (acc : List (String × LValue))
    (hnodup : (acc.map Prod.fst ++ kvs.map Prod.fst).Nodup)
    (h : ∀ kv ∈ kvs, kv.2 ≠ .gnil) :
    goToLuaHash acc kvs = acc ++ kvs.map (fun kv => (kv.1, goToLua kv.2)) := by
  induction kvs generalizing acc with
  | nil => simp [goToLuaHash]
  | cons kv rest ih =>
      have hv : isLNil (goToLua kv.2) = false :=
        isLNil_eq_false.mpr (goToLua_ne_lnil (h kv (by simp)))
      have hfresh : acc.any (fun ab => ab.1 == kv.1) = false := by
        rw [List.any_eq_false]
        intro ab hab
        simp only [beq_iff_eq]
        intro hcontra
        have h1 : ab.1 ∈ acc.map Prod.fst := List.mem_map_of_mem _ hab
        have h2 : kv.1 ∈ kv.1 :: rest.map Prod.fst := by simp
        have := (List.nodup_append.mp hnodup).2.2
        refine this h1 ?_
        rw [List.map_cons, hcontra]
        exact h2
      simp only [goToLuaHash, rawSetString, hv, if_neg Bool.false_ne_true,
        hfresh, if_neg Bool.false_ne_true]
      rw [ih _ ?_ (fun y hy => h y (by simp [hy]))]
      · simp
      · simpa using hnodup

theorem maxNFromPairs_of_no_nil (pairs : List (Bool × GoVal))
    (h : ∀ p ∈ pairs, p.1 = false) :
    maxNFromPairs pairs = pairs.length := by
  unfold maxNFromPairs
  rw [List.dropWhile_eq_self_iff.mpr, List.length_reverse]
  intro hne
  have hlen : pairs.length - 1 < pairs.length := by
    simp only [List.length_reverse] at hne; omega
  have hget : pairs.reverse.get ⟨0, hne⟩ = pairs[pairs.length - 1] := by
    simp [List.getElem_reverse]
  rw [hget]
  simp [h _ (List.getElem_mem hlen)]

theorem luaToGo_ltable (arr : List LValue) (hash : List (String × LValue)) :
    luaToGo (.ltable arr hash) =
      if 0 < maxNFromPairs (luaToGoArr arr) then
        .glist (((luaToGoArr arr).take (maxNFromPairs (luaToGoArr arr))).map
          Prod.snd)
      else .gmap (forEachGo (luaToGoArr arr) (luaToGoHash hash)) := by
  simp only [luaToGo]

theorem forEachGo_no_nil (hpairs : List (String × Bool × GoVal))
    (h : ∀ q ∈ hpairs, q.2.1 = false) :
    forEachGo [] hpairs = hpairs.map (fun q => (q.1, q.2.2)) := by
  unfold forEachGo
  simp only [List.enum_nil, List.filterMap_nil, List.nil_append]
  induction hpairs with
  | nil => simp
  | cons q rest ih =>
      rw [List.filterMap_cons, List.map_cons]
      rw [h q (by simp)]
      simp only [Bool.false_eq_true, if_neg, ite_false]
      rw [ih (fun y hy => h y (by simp [hy]))]

/-- **C3 (amended).**  For every native value built only from `nil`,
booleans, 64-bit floats, strings, *non-empty* ordered lists of *non-nil*
such values, and string-keyed maps (unique keys) of *non-nil* such
values, converting it to a scripting value (`goToLua`) and back
(`luaToGo`) reproduces the original value exactly, field for field and
element for element.  (As stated, the claim fails on the empty list and
on `nil` list elements / map values — see the counterexample.) -/
theorem C3_roundtrip_amended {v : GoVal} (hv : Good v) :
    luaToGo (goToLua v) = v := by
  induction hv with
  | gnil => rfl
  | gbool b => rfl
  | gnum n => rfl
  | gstr s => rfl
  | glist xs hne hnil _ ih =>
      rw [goToLua, goToLuaArr_eq_map xs [] hnil, List.nil_append,
        luaToGo_ltable, luaToGoArr_eq_map]
      have hflags : ∀ p ∈ (xs.map goToLua).map
          (fun v => (isLNil v, luaToGo v)), p.1 = false := by
        intro p hp
        simp only [List.map_map, List.mem_map, Function.comp] at hp
        obtain ⟨x, hx, rfl⟩ := hp
        exact isLNil_eq_false.mpr (goToLua_ne_lnil (hnil x hx))
      rw [maxNFromPairs_of_no_nil _ hflags]
      have hpos : 0 < ((xs.map goToLua).map
          (fun v => (isLNil v, luaToGo v))).length := by
        simpa using List.length_pos.mpr hne
      rw [if_pos hpos, List.take_length, List.map_map, List.map_map]
      have : ∀ x ∈ xs,
          ((Prod.snd ∘ fun v => (isLNil v, luaToGo v)) ∘ goToLua) x = id x :=
        fun x hx => ih x hx
      rw [List.map_congr_left this, List.map_id]
  | gmap kvs hnodup hnil _ ih =>
      rw [goToLua, goToLuaHash_eq_map kvs [] (by simpa using hnodup) hnil,
        List.nil_append, luaToGo_ltable]
      have h0 : maxNFromPairs (luaToGoArr []) = 0 := by
        simp [luaToGoArr, maxNFromPairs]
      rw [h0, if_neg (by omega), luaToGoHash_eq_map, List.map_map]
      rw [show luaToGoArr [] = ([] : List (Bool × GoVal)) by simp [luaToGoArr]]
      rw [forEachGo_no_nil]
      · rw [List.map_map]
        have : ∀ kv ∈ kvs,
            ((fun q => (q.1, q.2.2)) ∘
              (fun kv => (kv.1, isLNil kv.2, luaToGo kv.2)) ∘
              (fun kv => (kv.1, goToLua kv.2))) kv = id kv := by
          intro kv hkv
          simp only [Function.comp, id]
          rw [ih kv hkv]
        rw [List.map_congr_left this, List.map_id]
      · intro q hq
        simp only [List.map_map, List.mem_map, Function.comp] at hq
        obtain ⟨kv, hkv, rfl⟩ := hq
        exact isLNil_eq_false.mpr (goToLua_ne_lnil (hnil kv hkv))

/-- **C3, counterexample to the claim as stated.**  The empty ordered list
is a native value built only from the claim's grammar, yet the round
trip returns the empty *map* (a table with no array part converts via
the `ForEach` branch), not the empty list. -/
theorem C3_counterexample :
    luaToGo (goToLua (GoVal.glist [])) = GoVal.gmap [] ∧
      GoVal.gmap [] ≠ GoVal.glist [] :=
  ⟨rfl, fun h => GoVal.noConfusion h⟩

/-- **C3, witness.**  The amended round-trip theorem applied to the
spec's own example value. -/
theorem C3_witness :
    Good (GoVal.gmap [("name", .gstr "test"), ("count", .gnum 42),
        ("active", .gbool true), ("tags", .glist [.gstr "a", .gstr "b"])]) ∧
      luaToGo (goToLua (GoVal.gmap [("name", .gstr "test"),
        ("count", .gnum 42), ("active", .gbool true),
        ("tags", .glist [.gstr "a", .gstr "b"])])) =
      GoVal.gmap [("name", .gstr "test"), ("count", .gnum 42),
        ("active", .gbool true), ("tags", .glist [.gstr "a", .gstr "b"])] := by
  have htags : Good (GoVal.glist [.gstr "a", .gstr "b"]) := by
    refine Good.glist _ (by simp) ?_ ?_
    · intro x hx
      fin_cases hx <;> simp
    · intro x hx
      fin_cases hx <;> exact Good.gstr _
  have hg : Good (GoVal.gmap [("name", .gstr "test"), ("count", .gnum 42),
      ("active", .gbool true), ("tags", .glist [.gstr "a", .gstr "b"])]) := by
    refine Good.gmap _ ?_ ?_ ?_
    · decide
    · intro kv hkv
      fin_cases hkv <;> simp
    · intro kv hkv
      fin_cases hkv
      · exact Good.gstr _
      · exact Good.gnum _
      · exact Good.gbool _
      · exact htags
  exact ⟨hg, C3_roundtrip_amended hg⟩

end Kael

namespace Kael

/-! ## C4: the `lines` output adapter -/

theorem trimRightNewlines_eq_specTrimTrailing (s : List Char) :
    trimRightNewlines s = specTrimTrailing s := by
  by_cases h : s.getLast? = some '\n'
  · have hne : s ≠ [] := by
      intro he
      rw [he] at h
      simp at h
    have hs : s.dropLast ++ ['\n'] = s :=
      List.dropLast_append_getLast? _ (by rw [h]; rfl)
    rw [specTrimTrailing, dif_pos h]
    have hstep : trimRightNewlines s = trimRightNewlines s.dropLast := by
      unfold trimRightNewlines
      conv_lhs => rw [← hs]
      rw [List.reverse_append]
      simp [List.dropWhile]
    rw [hstep]
    exact trimRightNewlines_eq_specTrimTrailing s.dropLast
  · rw [specTrimTrailing, dif_neg h]
    unfold trimRightNewlines
    cases hs : s.reverse with
    | nil =>
        have : s = [] := by simpa using congrArg List.reverse hs
        simp [this]
    | cons c r =>
        have hc : (c == '\n') = false := by
          rw [beq_eq_false_iff_ne]
          intro hceq
          apply h
          rw [← List.head?_reverse, hs, hceq]
          rfl
        rw [List.dropWhile_cons, hc]
        simp only [Bool.false_eq_true, if_neg, ite_false]
        rw [← hs, List.reverse_reverse]
termination_by s.length
decreasing_by
  have hne : s ≠ [] := by
    intro he
    rw [he] at h
    simp at h
  have := List.length_pos.mpr hne
  rw [List.length_dropLast]
  omega

/-- **C4, counterexample to the claim as stated.**  On the stdout bytes
`"a\n\n"` the source's `TrimRight` removes *both* trailing newlines and
yields `{"lines": ["a"]}`, while trimming exactly one trailing newline
(the claim's words) would leave `"a\n"` and yield `{"lines": ["a", ""]}`. -/
theorem C4_counterexample :
    adaptOutputLines "a\n\n".data = .gmap [("lines", .glist [.gstr "a"])] ∧
    specLinesTrimOne "a\n\n".data =
      .gmap [("lines", .glist [.gstr "a", .gstr ""])] ∧
    adaptOutputLines "a\n\n".data ≠ specLinesTrimOne "a\n\n".data := by
  refine ⟨rfl, rfl, ?_⟩
  intro hco
  rw [show adaptOutputLines "a\n\n".data =
      .gmap [("lines", .glist [.gstr "a"])] from rfl,
    show specLinesTrimOne "a\n\n".data =
      .gmap [("lines", .glist [.gstr "a", .gstr ""])] from rfl] at hco
  simp at hco

/-- **C4 (amended).**  For every raw process stdout byte string, the
`lines` output adapter trims *all* trailing newlines, splits the
remainder on `"\n"`, and returns a mapping `{"lines": [...]}` holding
each resulting line; an entirely empty (post-trim) stdout yields an
empty list.  Stated as: the source's `adaptOutputLines` coincides with
the function written from the amended claim's words. -/
theorem C4_lines_adapter_amended (outputB : List Char) :
    adaptOutputLines outputB = specLinesAmended outputB := by
  unfold adaptOutputLines specLinesAmended
  rw [trimRightNewlines_eq_specTrimTrailing]

end Kael

namespace Kael

/-! ## C7: `parseSourcePath` -/

theorem goIndex_cons_none {pat : List Char} {c : Char} {cs : List Char}
    (h : goIndex pat (c :: cs) = none) : goIndex pat cs = none := by
  rw [goIndex] at h
  by_cases hp : pat.isPrefixOf (c :: cs) = true
  · rw [if_pos hp] at h
    cases h
  · rw [if_neg hp] at h
    exact Option.map_eq_none.mp h

theorem goIndex_drop_none (pat : List Char) :
    ∀ (n : Nat) (s : List Char), goIndex pat s = none →
      goIndex pat (s.drop n) = none := by
  intro n
  induction n with
  | zero =>
      intro s h
      simpa using h
  | succ n ih =>
      intro s h
      cases s with
      | nil => simpa using h
      | cons c cs =>
          rw [List.drop_succ_cons]
          exact ih cs (goIndex_cons_none h)

/-- **C7.**  `parseSourcePath` splits a tool source on the first `//`
that is not part of an `http://` / `https://` scheme prefix: the two
spec examples hold verbatim, and in general, with `protocolEndOf` the
length of the scheme prefix (0 for scheme-less sources), a source with
no `//` at or after the scheme prefix — the claim's "no such separator",
covering both scheme-less and scheme-prefixed sources — yields the whole
source as base and an empty in-repo path, while a source whose first
`//` at or after the scheme prefix sits at offset `i` splits there (the
in-repo path losing one further leading `/`).  The two cases cover every
source. -/
theorem C7_parseSourcePath :
    parseSourcePath "git@github.com:org/repo.git//scripts/check.py".data =
      ("git@github.com:org/repo.git".data, "scripts/check.py".data) ∧
    parseSourcePath "https://github.com/org/repo//tools".data =
      ("https://github.com/org/repo".data, "tools".data) ∧
    (∀ source : List Char,
      goIndex "//".data (source.drop (protocolEndOf source)) = none →
      parseSourcePath source = (source, [])) ∧
    (∀ (source : List Char) (i : Nat),
      goIndex "//".data (source.drop (protocolEndOf source)) = some i →
      parseSourcePath source =
        (source.take (protocolEndOf source + i),
          trimLeadSlash (source.drop (protocolEndOf source + i + 2)))) := by
  refine ⟨by decide, by decide, ?_, ?_⟩
  · intro source hnone
    unfold parseSourcePath
    cases h0 : goIndex "//".data source with
    | none => rfl
    | some j => rw [hnone]
  · intro source i hsome
    unfold parseSourcePath
    cases h0 : goIndex "//".data source with
    | none =>
        rw [goIndex_drop_none "//".data (protocolEndOf source) source h0]
          at hsome
        cases hsome
    | some j => rw [hsome]

/-- **C7, witness.**  The no-separator conjunct at a scheme-prefixed
source with no monorepo separator and at a local path. -/
theorem C7_witness :
    parseSourcePath "https://github.com/org/repo".data =
      ("https://github.com/org/repo".data, []) ∧
    parseSourcePath "/local/path".data = ("/local/path".data, []) :=
  ⟨C7_parseSourcePath.2.2.1 "https://github.com/org/repo".data (by decide),
    C7_parseSourcePath.2.2.1 "/local/path".data (by decide)⟩

end Kael

namespace Kael

/-! ## C8: `wireNamespace` -/

theorem breakOn_isSome_of_infix {pat s : List Char} (h : pat <:+: s) :
    (breakOn pat s).isSome := by
  induction s with
  | nil =>
      rw [List.infix_nil] at h
      subst h
      simp [breakOn]
  | cons c cs ih =>
      rw [breakOn]
      by_cases hp : pat.isPrefixOf (c :: cs) = true
      · rw [if_pos hp]
        rfl
      · rw [if_neg hp, Option.isSome_map']
        apply ih
        rcases List.infix_cons_iff.mp h with h1 | h2
        · exact absurd (List.isPrefixOf_iff_prefix.mpr h1) hp
        · exact h2

/-- **C8 (amended).**  The namespace wiring primitive is idempotent: a
successful `wire` output fed back through `wire` with the same
`(localName, dottedRequirePath)` is returned unchanged (the exact require
line is never duplicated); and on a file not yet containing the exact
require line, the line plus a newline is inserted immediately before the
*first* occurrence of `return M` (the claim's "trailing `return M`" only
matches when the file has a single occurrence — see the
counterexample). -/
theorem C8_wire_idempotent_amended :
    (∀ content name requirePath r,
      wireNamespace content name requirePath = .ok r →
      wireNamespace r name requirePath = .ok r) ∧
    (∀ content name requirePath pre post,
      goContains content (requireLineOf name requirePath) = false →
      breakOn "return M".data content = some (pre, post) →
      wireNamespace content name requirePath =
        .ok (pre ++ requireLineOf name requirePath ++
          ("\nreturn M").data ++ post)) := by
  constructor
  · intro content name requirePath r h
    unfold wireNamespace at h ⊢
    by_cases hc : goContains content (requireLineOf name requirePath) = true
    · rw [if_pos hc] at h
      cases h
      rw [if_pos hc]
    · rw [if_neg hc] at h
      cases hbk : breakOn "return M".data content with
      | none =>
          rw [hbk] at h
          cases h
      | some pr =>
          rw [hbk] at h
          cases h
          have hinf : requireLineOf name requirePath <:+:
              pr.1 ++ requireLineOf name requirePath ++
                ("\nreturn M").data ++ pr.2 :=
            ⟨pr.1, ("\nreturn M").data ++ pr.2, by simp⟩
          rw [if_pos (show goContains _ (requireLineOf name requirePath) = true
            from breakOn_isSome_of_infix hinf)]
  · intro content name requirePath pre post hc hbk
    unfold wireNamespace
    rw [if_neg (by rw [hc]; exact Bool.false_ne_true), hbk]

/-- **C8, counterexample to the claim as stated.**  On a file with two
`return M` occurrences the require line is inserted before the *first*
one (`strings.Replace(..., 1)`), not immediately before the trailing
`return M` statement as the claim says. -/
theorem C8_counterexample :
    wireNamespace ("A\nreturn M\nB\nreturn M\n").data "x" "a.b" =
      .ok ("A\nM.x = require(\"a.b\")\nreturn M\nB\nreturn M\n").data ∧
    ("A\nM.x = require(\"a.b\")\nreturn M\nB\nreturn M\n").data ≠
      ("A\nreturn M\nB\nM.x = require(\"a.b\")\nreturn M\n").data :=
  ⟨rfl, by decide⟩

/-- **C8, witness.**  Wiring an empty module file once inserts the line
before its `return M`; the idempotence conjunct then returns the wired
content unchanged. -/
theorem C8_witness :
    wireNamespace ("local M = \x7b\x7d\nreturn M\n").data "x" "a.b" =
      .ok ("local M = \x7b\x7d\nM.x = require(\"a.b\")\nreturn M\n").data ∧
    wireNamespace
        ("local M = \x7b\x7d\nM.x = require(\"a.b\")\nreturn M\n").data
        "x" "a.b" =
      .ok ("local M = \x7b\x7d\nM.x = require(\"a.b\")\nreturn M\n").data := by
  have h1 : wireNamespace ("local M = \x7b\x7d\nreturn M\n").data "x" "a.b" =
      .ok ("local M = \x7b\x7d\nM.x = require(\"a.b\")\nreturn M\n").data := by
    rfl
  exact ⟨h1, C8_wire_idempotent_amended.1 _ "x" "a.b" _ h1⟩

end Kael

namespace Kael

/-! ## C2 / C9: the schema validator -/

theorem checkType_unknown (name t : String) (v : LValue)
    (h1 : t ≠ "string") (h2 : t ≠ "number") (h3 : t ≠ "boolean")
    (h4 : t ≠ "array") (h5 : t ≠ "object") :
    checkType name t v = none := by
  unfold checkType
  rw [if_neg h1, if_neg h2, if_neg h3, if_neg (by simp [h4, h5])]

theorem validateFields_eq_findSome (merged : List (String × LValue))
    (fields : List (String × FieldSchema)) :
    validateFields merged fields = fields.findSome? (fieldCheck merged) := by
  induction fields with
  | nil => rfl
  | cons f rest ih =>
      obtain ⟨name, field⟩ := f
      simp only [validateFields, fieldCheck, List.findSome?_cons]
      by_cases hnil : isLNil (rawGetString merged name) = true
      · simp only [hnil, if_true]
        by_cases hreq : field.required = true
        · simp [hreq]
        · simp only [Bool.not_eq_true] at hreq
          simp [hreq, ih]
      · simp only [Bool.not_eq_true] at hnil
        simp only [hnil, Bool.false_eq_true, if_neg, ite_false]
        cases hct : checkType name field.ty (rawGetString merged name) with
        | some e => simp [hct]
        | none => simp [hct, ih]

theorem validateFields_append (merged : List (String × LValue))
    (pre : List (String × FieldSchema)) (f : String × FieldSchema)
    (post : List (String × FieldSchema)) (e : String)
    (hpre : ∀ p ∈ pre, fieldCheck merged p = none)
    (hf : fieldCheck merged f = some e) :
    validateFields merged (pre ++ f :: post) = some e := by
  rw [validateFields_eq_findSome]
  induction pre with
  | nil =>
      rw [List.nil_append, List.findSome?_cons, hf]
  | cons p ps ih =>
      rw [List.cons_append, List.findSome?_cons, hpre p (by simp)]
      exact ih (fun q hq => hpre q (by simp [hq]))

/-- **C2 (amended).**  The declared input fields are checked in the Go
map's iteration order, which is *unspecified* (not the declaration
order): whatever iteration sequence occurs, validation returns the first
per-field failure along that sequence (`List.findSome?` of the per-field
check), the first failing field short-circuits — later-visited fields,
whatever they are, change nothing — and the single resulting failure
surfaces from the tool closure as a dispatch-time error tagged
`Schema Validation Failure: <message>`. -/
theorem C2_validation_amended :
    (∀ (merged : List (String × LValue))
        (fields : List (String × FieldSchema)),
      validateFields merged fields = fields.findSome? (fieldCheck merged)) ∧
    (∀ (merged : List (String × LValue))
        (pre : List (String × FieldSchema)) (f : String × FieldSchema)
        (post : List (String × FieldSchema)) (e : String),
      (∀ p ∈ pre, fieldCheck merged p = none) →
      fieldCheck merged f = some e →
      validateFields merged (pre ++ f :: post) = some e) ∧
    (∀ (cfg : ToolConfigM) (uArr : List LValue)
        (uHash : List (String × LValue)) (e : String),
      validateInput cfg.schema (buildMerged cfg.defaults uArr uHash) =
        some e →
      toolCallPrep cfg uArr uHash =
        .validationError ("Schema Validation Failure: " ++ e)) := by
  refine ⟨validateFields_eq_findSome, validateFields_append, ?_⟩
  intro cfg uArr uHash e h
  simp only [toolCallPrep, h]

/-- **C2, counterexample to the claim as stated.**  The source iterates a
Go `map[string]FieldSchema` (`for name, field := range schema.Input`),
whose iteration order is unspecified; for the two-required-field schema
`{a="string", b="string"}` both iteration sequences are permutations of
the declared fields, yet they surface different first failures on an
empty parameter table — so the fields are not checked in declaration
order. -/
theorem C2_counterexample :
    List.Perm
      [(("b" : String), (⟨"string", true, ""⟩ : FieldSchema)),
        ("a", ⟨"string", true, ""⟩)]
      [("a", (⟨"string", true, ""⟩ : FieldSchema)),
        ("b", ⟨"string", true, ""⟩)] ∧
    validateFields []
        [("b", ⟨"string", true, ""⟩), ("a", ⟨"string", true, ""⟩)] =
      some "missing required field \"b\" (expected string)" ∧
    validateFields []
        [("a", ⟨"string", true, ""⟩), ("b", ⟨"string", true, ""⟩)] =
      some "missing required field \"a\" (expected string)" ∧
    validateFields []
        [("b", ⟨"string", true, ""⟩), ("a", ⟨"string", true, ""⟩)] ≠
      validateFields []
        [("a", ⟨"string", true, ""⟩), ("b", ⟨"string", true, ""⟩)] := by
  refine ⟨by decide, rfl, rfl, by decide⟩

/-- **C2, witness.**  The short-circuit conjunct at a concrete schema: a
passing field, then a failing one, then a later field that is never
reached. -/
theorem C2_witness :
    validateFields [("ok", .lstr "v")]
        ([("ok", (⟨"string", true, ""⟩ : FieldSchema))] ++
          ("missing", (⟨"number", true, ""⟩ : FieldSchema)) ::
            [("later", (⟨"string", true, ""⟩ : FieldSchema))]) =
      some "missing required field \"missing\" (expected number)" :=
  C2_validation_amended.2.1 [("ok", .lstr "v")]
    [("ok", ⟨"string", true, ""⟩)] ("missing", ⟨"number", true, ""⟩)
    [("later", ⟨"string", true, ""⟩)] _
    (by decide) (by decide)

/-- **C9.**  A declared input field whose type string is none of
`string`, `number`, `boolean`, `array`, `object` (e.g. the typo
`integer`) hits no case of `checkType`'s switch, so any present value
passes the type check; validation of such a field can only fail with the
missing-required-field error, never with a type mismatch. -/
theorem C9_unknown_type_passes (t : String)
    (h : t ∉ (["string", "number", "boolean", "array", "object"] :
      List String)) :
    (∀ (name : String) (v : LValue), checkType name t v = none) ∧
    (∀ (name : String) (req : Bool) (d : String)
        (merged : List (String × LValue)),
      validateFields merged [(name, ⟨t, req, d⟩)] =
        if isLNil (rawGetString merged name) && req then
          some ("missing required field \"" ++ name ++ "\" (expected " ++
            t ++ ")")
        else none) := by
  simp only [List.mem_cons, List.mem_singleton, not_or] at h
  obtain ⟨h1, h2, h3, h4, h5, -⟩ := h
  have hct : ∀ (name : String) (v : LValue), checkType name t v = none :=
    fun name v => checkType_unknown name t v h1 h2 h3 h4 h5
  refine ⟨hct, ?_⟩
  intro name req d merged
  simp only [validateFields]
  by_cases hnil : isLNil (rawGetString merged name) = true
  · simp only [hnil, if_true, Bool.true_and]
  · simp only [Bool.not_eq_true] at hnil
    simp only [hnil, Bool.false_eq_true, if_neg, ite_false, Bool.false_and,
      hct, validateFields]

/-- **C9, witness.**  The typo type `integer`: a present string value
passes the type check, and an absent required `integer` field still
fails as missing. -/
theorem C9_witness :
    checkType "count" "integer" (.lstr "x") = none ∧
    validateFields [] [("count", ⟨"integer", true, ""⟩)] =
      some "missing required field \"count\" (expected integer)" := by
  have h := C9_unknown_type_passes "integer" (by decide)
  refine ⟨h.1 "count" (.lstr "x"), ?_⟩
  rw [h.2 "count" true "" []]
  rfl

end Kael

namespace Kael

/-! ## C1: the defaults/user merge of the tool closure -/

theorem find?_map_setKey (rest : List (String × LValue)) (k k' : String)
    (v : LValue) (hne : (k == k') = false) :
    (rest.map (fun kv => if kv.1 == k then (k, v) else kv)).find?
        (fun q => q.1 == k') =
      rest.find? (fun q => q.1 == k') := by
  induction rest with
  | nil => rfl
  | cons r rs ih =>
      rw [List.map_cons]
      by_cases hr : (r.1 == k) = true
      · have h2 : (r.1 == k') = false := by
          rw [beq_iff_eq] at hr
          rw [hr]
          exact hne
        rw [if_pos hr]
        simp only [List.find?_cons, hne, h2]
        exact ih
      · rw [if_neg hr]
        by_cases hk : (r.1 == k') = true
        · simp only [List.find?_cons, hk]
        · simp only [Bool.not_eq_true] at hk
          simp only [List.find?_cons, hk]
          exact ih

theorem find?_map_setKey_hit (h : List (String × LValue)) (k : String)
    (v : LValue) (hany : h.any (fun kv => kv.1 == k) = true) :
    (h.map (fun kv => if kv.1 == k then (k, v) else kv)).find?
        (fun q => q.1 == k) = some (k, v) := by
  induction h with
  | nil => simp at hany
  | cons r rs ih =>
      rw [List.map_cons]
      by_cases hr : (r.1 == k) = true
      · rw [if_pos hr]
        simp only [List.find?_cons, beq_self_eq_true]
      · rw [if_neg hr]
        simp only [Bool.not_eq_true] at hr
        simp only [List.find?_cons, hr]
        apply ih
        simp only [List.any_cons, hr, Bool.false_or] at hany
        exact hany

theorem rawGetString_rawSetString (h : List (String × LValue))
    (k k' : String) (v : LValue) (hv : isLNil v = false) :
    rawGetString (rawSetString h k v) k' =
      if k' = k then v else rawGetString h k' := by
  unfold rawSetString
  rw [hv, if_neg Bool.false_ne_true]
  by_cases hany : h.any (fun kv => kv.1 == k) = true
  · rw [if_pos hany]
    by_cases hk : k' = k
    · subst hk
      rw [if_pos rfl]
      unfold rawGetString
      rw [find?_map_setKey_hit h k' v hany]
    · rw [if_neg hk]
      unfold rawGetString
      rw [find?_map_setKey h k k' v
        (beq_eq_false_iff_ne.mpr (fun he => hk he.symm))]
  · rw [if_neg hany]
    unfold rawGetString
    rw [List.find?_append]
    by_cases hk : k' = k
    · subst hk
      rw [if_pos rfl]
      have hany2 : h.any (fun kv => kv.1 == k') = false := by
        rw [← Bool.not_eq_true]
        exact hany
      have hf : h.find? (fun q => q.1 == k') = none := by
        rw [List.find?_eq_none]
        intro kv hkv
        have := List.any_eq_false.mp hany2 kv hkv
        simpa using this
      rw [hf]
      simp only [Option.none_or, List.find?_cons, beq_self_eq_true]
    · rw [if_neg hk]
      have hne2 : ((k, v).1 == k') = false :=
        beq_eq_false_iff_ne.mpr (fun he => hk he.symm)
      have hsingle : List.find? (fun q => q.1 == k') [(k, v)] = none := by
        simp only [List.find?_cons, hne2]
        rfl
      rw [hsingle, Option.or_none]

theorem find?_of_mem_nodup (l : List (String × LValue))
    (kv : String × LValue) (hmem : kv ∈ l)
    (hnd : (l.map Prod.fst).Nodup) :
    l.find? (fun q => q.1 == kv.1) = some kv := by
  induction l with
  | nil => cases hmem
  | cons r rs ih =>
      rw [List.map_cons, List.nodup_cons] at hnd
      rcases List.mem_cons.mp hmem with hr | hrs
      · subst hr
        simp only [List.find?_cons, beq_self_eq_true]
      · have hne : (r.1 == kv.1) = false := by
          rw [beq_eq_false_iff_ne]
          intro he
          exact hnd.1 (he ▸ List.mem_map_of_mem Prod.fst hrs)
        simp only [List.find?_cons, hne]
        exact ih hrs hnd.2

theorem forEachEntries_no_nil (arr : List LValue)
    (hash : List (String × LValue)) :
    ∀ kv ∈ forEachEntries arr hash, isLNil kv.2 = false := by
  intro kv hkv
  unfold forEachEntries at hkv
  rcases List.mem_append.mp hkv with h1 | h2
  · obtain ⟨p, _, hp⟩ := List.mem_filterMap.mp h1
    by_cases hnil : isLNil p.2 = true
    · rw [if_pos hnil] at hp
      cases hp
    · rw [if_neg hnil] at hp
      cases hp
      simpa using hnil
  · have := (List.mem_filter.mp h2).2
    simpa using this

theorem rawGetString_setAll (es : List (String × LValue)) :
    ∀ (h : List (String × LValue)) (k : String),
    (∀ kv ∈ es, isLNil kv.2 = false) →
    (es.map Prod.fst).Nodup →
    rawGetString (es.foldl (fun m kv => rawSetString m kv.1 kv.2) h) k =
      (match es.find? (fun kv => kv.1 == k) with
        | some kv => kv.2
        | none => rawGetString h k) := by
  induction es with
  | nil =>
      intro h k _ _
      rfl
  | cons e rest ih =>
      intro h k hnil hnd
      rw [List.map_cons, List.nodup_cons] at hnd
      rw [List.foldl_cons, ih _ k (fun kv hkv => hnil kv (by simp [hkv]))
        hnd.2]
      by_cases hk : (e.1 == k) = true
      · have hnone : rest.find? (fun kv => kv.1 == k) = none := by
          rw [List.find?_eq_none]
          intro kv hkv
          simp only [beq_iff_eq]
          intro he
          rw [beq_iff_eq] at hk
          exact hnd.1 (by rw [hk, ← he]; exact
            List.mem_map_of_mem Prod.fst hkv)
        simp only [List.find?_cons, hk, hnone]
        rw [rawGetString_rawSetString _ _ _ _ (hnil e (by simp))]
        rw [beq_iff_eq] at hk
        rw [if_pos hk.symm]
      · simp only [Bool.not_eq_true] at hk
        simp only [List.find?_cons, hk]
        cases hf : rest.find? (fun kv => kv.1 == k) with
        | some kv => rfl
        | none =>
            rw [rawGetString_rawSetString _ _ _ _ (hnil e (by simp))]
            rw [if_neg (fun he =>
              (beq_eq_false_iff_ne.mp hk) he.symm)]

end Kael

namespace Kael

/-- **C1.**  For every Tool Definition defaults mapping and user-supplied
parameter table, the `merged` table built by the tool closure holds every
user-supplied entry with its user value (the user value wins on every key
collision), every defaults-only key with its default value, and nothing
else (every other lookup is nil).  The hypotheses are the invariants of
the source structures: `cfg.Defaults` is a Go map (unique keys, values
taken from a Lua table so never nil), and the user table's `ForEach`
entries have unique stringified keys. -/
theorem C1_defaults_merge (defaults : List (String × LValue))
    (uArr : List LValue) (uHash : List (String × LValue))
    (hdnd : (defaults.map Prod.fst).Nodup)
    (hdnil : ∀ kv ∈ defaults, isLNil kv.2 = false)
    (hund : ((forEachEntries uArr uHash).map Prod.fst).Nodup) :
    (∀ kv ∈ forEachEntries uArr uHash,
      rawGetString (buildMerged defaults uArr uHash) kv.1 = kv.2) ∧
    (∀ kv ∈ defaults,
      (∀ ukv ∈ forEachEntries uArr uHash, ukv.1 ≠ kv.1) →
      rawGetString (buildMerged defaults uArr uHash) kv.1 = kv.2) ∧
    (∀ k : String,
      (∀ ukv ∈ forEachEntries uArr uHash, ukv.1 ≠ k) →
      (∀ kv ∈ defaults, kv.1 ≠ k) →
      rawGetString (buildMerged defaults uArr uHash) k = .lnil) := by
  have hset : ∀ k : String,
      rawGetString (buildMerged defaults uArr uHash) k =
        (match (forEachEntries uArr uHash).find? (fun kv => kv.1 == k) with
          | some kv => kv.2
          | none =>
            match defaults.find? (fun kv => kv.1 == k) with
            | some kv => kv.2
            | none => rawGetString [] k) := by
    intro k
    unfold buildMerged
    rw [rawGetString_setAll _ _ k (forEachEntries_no_nil uArr uHash) hund]
    cases (forEachEntries uArr uHash).find? (fun kv => kv.1 == k) with
    | some kv => rfl
    | none =>
        rw [rawGetString_setAll _ _ k hdnil hdnd]
  refine ⟨?_, ?_, ?_⟩
  · intro kv hkv
    rw [hset kv.1, find?_of_mem_nodup _ kv hkv hund]
  · intro kv hkv hnouser
    rw [hset kv.1]
    have hu : (forEachEntries uArr uHash).find?
        (fun q => q.1 == kv.1) = none := by
      rw [List.find?_eq_none]
      intro q hq
      simpa using hnouser q hq
    rw [hu, find?_of_mem_nodup _ kv hkv hdnd]
  · intro k hnouser hnodef
    rw [hset k]
    have hu : (forEachEntries uArr uHash).find?
        (fun q => q.1 == k) = none := by
      rw [List.find?_eq_none]
      intro q hq
      simpa using hnouser q hq
    have hd : defaults.find? (fun q => q.1 == k) = none := by
      rw [List.find?_eq_none]
      intro q hq
      simpa using hnodef q hq
    rw [hu, hd]
    rfl

/-- **C1, witness.**  The spec's own example: defaults
`{endpoint="http://default:9090", step=5}`, call parameters
`{endpoint="http://custom:9090", query="up"}` — the user endpoint wins,
the default `step` survives, the user-only `query` is present. -/
theorem C1_witness :
    rawGetString (buildMerged
        [("endpoint", .lstr "http://default:9090"), ("step", .lnum 5)] []
        [("endpoint", .lstr "http://custom:9090"), ("query", .lstr "up")])
      "endpoint" = .lstr "http://custom:9090" ∧
    rawGetString (buildMerged
        [("endpoint", .lstr "http://default:9090"), ("step", .lnum 5)] []
        [("endpoint", .lstr "http://custom:9090"), ("query", .lstr "up")])
      "step" = .lnum 5 ∧
    rawGetString (buildMerged
        [("endpoint", .lstr "http://default:9090"), ("step", .lnum 5)] []
        [("endpoint", .lstr "http://custom:9090"), ("query", .lstr "up")])
      "query" = .lstr "up" := by
  have h := C1_defaults_merge
    [("endpoint", .lstr "http://default:9090"), ("step", .lnum 5)] []
    [("endpoint", .lstr "http://custom:9090"), ("query", .lstr "up")]
    (by decide) (by decide) (by decide)
  refine ⟨?_, ?_, ?_⟩
  · exact h.1 ("endpoint", .lstr "http://custom:9090")
      (by simp [forEachEntries, isLNil])
  · exact h.2.1 ("step", .lnum 5) (by simp)
      (by intro ukv hukv
          simp only [forEachEntries, List.enum_nil, List.filterMap_nil,
            List.nil_append, List.mem_filter] at hukv
          rcases List.mem_cons.mp hukv.1 with he | he
          · rw [he]
            decide
          · rw [List.mem_singleton.mp he]
            decide)
  · exact h.1 ("query", .lstr "up") (by simp [forEachEntries, isLNil])

/-- **C10.**  `luaToGo` is total over all scripting values: a value that
is not nil, a boolean, a number, a string, or a table (e.g. a function)
falls into the type switch's default branch and converts to the native
absent value `nil` instead of raising an error. -/
theorem C10_luaToGo_total_default (v : LValue)
    (h1 : v ≠ .lnil) (h2 : ∀ b, v ≠ .lbool b) (h3 : ∀ n, v ≠ .lnum n)
    (h4 : ∀ s, v ≠ .lstr s) (h5 : ∀ arr hash, v ≠ .ltable arr hash) :
    luaToGo v = .gnil := by
  cases v with
  | lnil => exact absurd rfl h1
  | lbool b => exact absurd rfl (h2 b)
  | lnum n => exact absurd rfl (h3 n)
  | lstr s => exact absurd rfl (h4 s)
  | ltable arr hash => exact absurd rfl (h5 arr hash)
  | lother t => rw [luaToGo]

/-- **C10, witness.**  A Lua function value converts to `nil`. -/
theorem C10_witness : luaToGo (.lother "function") = .gnil :=
  C10_luaToGo_total_default (.lother "function") (fun h => nomatch h)
    (fun _ h => nomatch h) (fun _ h => nomatch h) (fun _ h => nomatch h)
    (fun _ _ h => nomatch h)

end Kael

namespace Kael

/-! ## C5 / C6: input adapters -/

theorem positionalRest_nil_consumed (entries : List (String × LValue)) :
    ∀ acc, positionalRest [] acc entries = argsLoop acc entries := by
  induction entries with
  | nil =>
      intro acc
      rfl
  | cons e rest ih =>
      intro acc
      obtain ⟨key, val⟩ := e
      cases val <;> simp [positionalRest, argsLoop, ih]

/-- **C5 (amended).**  A tool call whose Tool Definition selects
`input_adapter = "positional_args"` but declares no `args_order` does
*not* fail at input-adaptation time: `positionalFromTable` consumes no
key and never returns an error, so the adapter degenerates to the `args`
adapter's flag emission, and the tool is dispatched (with those flags and
no stdin) rather than raising an adaptation error. -/
theorem C5_positional_without_argsOrder_amended :
    (∀ (arr : List LValue) (hash : List (String × LValue)),
      adaptInput "positional_args" arr hash [] = argsFromTable arr hash) ∧
    (∀ (defaults : List (String × LValue)) (schema : Option ToolSchemaM)
        (uArr : List LValue) (uHash : List (String × LValue)),
      validateInput schema (buildMerged defaults uArr uHash) = none →
      toolCallPrep ⟨defaults, schema, "positional_args", []⟩ uArr uHash =
        .dispatched none (argsLoop []
          (forEachEntries [] (buildMerged defaults uArr uHash)))) := by
  have hkey : ∀ (arr : List LValue) (hash : List (String × LValue)),
      adaptInput "positional_args" arr hash [] = argsFromTable arr hash := by
    intro arr hash
    show positionalFromTable arr hash [] = argsFromTable arr hash
    unfold positionalFromTable argsFromTable
    rw [show positionalFirst hash [] [] = [] from rfl,
      positionalRest_nil_consumed]
  refine ⟨hkey, ?_⟩
  intro defaults schema uArr uHash h
  simp only [toolCallPrep, h]
  rw [hkey]
  rfl

/-- **C5, counterexample to the claim as stated.**  A concrete tool with
`input_adapter = "positional_args"`, no `args_order`, and one string
parameter: the modelled closure reaches the *dispatched* outcome (with
the parameter emitted as a `--x` flag and no stdin), not an adaptation
error. -/
theorem C5_counterexample :
    toolCallPrep ⟨[], none, "positional_args", []⟩ []
      [("x", .lstr "1")] = .dispatched none ["--x", "1"] := rfl

/-- **C5, witness.**  The dispatch conjunct of the amended theorem at the
same concrete tool. -/
theorem C5_witness :
    toolCallPrep ⟨[], none, "positional_args", []⟩ [] [("x", .lstr "1")] =
      .dispatched none (argsLoop []
        (forEachEntries [] (buildMerged [] [] [("x", .lstr "1")]))) :=
  C5_positional_without_argsOrder_amended.2 [] none [] [("x", .lstr "1")]
    rfl

theorem foldl_append_flat (α : Type) (f : α → List String) :
    ∀ (l : List α) (acc : List String),
    l.foldl (fun a x => a ++ f x) acc = acc ++ l.flatMap f := by
  intro l
  induction l with
  | nil =>
      intro acc
      simp
  | cons x xs ih =>
      intro acc
      simp only [List.foldl_cons, List.flatMap_cons, ih,
        List.append_assoc]

theorem argsLoop_eq_flatMap (entries : List (String × LValue)) :
    ∀ acc, argsLoop acc entries = acc ++ entries.flatMap claimArgsEmit := by
  induction entries with
  | nil =>
      intro acc
      simp [argsLoop]
  | cons e rest ih =>
      intro acc
      obtain ⟨key, val⟩ := e
      cases val with
      | lbool b =>
          cases b <;> simp [argsLoop, claimArgsEmit, ih]
      | lnum n => simp [argsLoop, claimArgsEmit, ih]
      | lstr s => simp [argsLoop, claimArgsEmit, ih]
      | ltable varr vhash =>
          simp only [argsLoop]
          rw [foldl_append_flat (String × LValue)
              (fun item => ["--" ++ key, lvalString item.2]),
            List.nil_append, ih]
          simp [claimArgsEmit, List.flatMap_cons, List.append_assoc]
      | lnil => simp [argsLoop, claimArgsEmit, ih]
      | lother t => simp [argsLoop, claimArgsEmit, ih]

end Kael

namespace Kael

/-- **C6.**  Under the `args` input adapter, every merged-table key emits
exactly what the claim describes — `true` a standalone `--key` flag,
`false` nothing, a string or number `--key <value>` (numbers in decimal
format), a table the flag repeated once per element with the element
stringified — and no stdin bytes and no error are produced: the adapter's
output is the per-key emissions concatenated in table-iteration order.
The second conjunct is the spec's own example
`{verbose=true, quiet=false, name="test"}`. -/
theorem C6_args_adapter :
    (∀ (arr : List LValue) (hash : List (String × LValue)),
      argsFromTable arr hash =
        .ok (none, (forEachEntries arr hash).flatMap claimArgsEmit)) ∧
    argsFromTable []
        [("verbose", .lbool true), ("quiet", .lbool false),
          ("name", .lstr "test")] =
      .ok (none, ["--verbose", "--name", "test"]) := by
  constructor
  · intro arr hash
    unfold argsFromTable
    rw [argsLoop_eq_flatMap, List.nil_append]
  · rfl

end Kael
